import Mathlib

/-!
# seize: text-to-image command line tool (`main.go`)

A shallow embedding of the pure parts of `main.go` and of the Go library
routines they call, followed by theorems about them.

Conventions of the embedding.

* A Go `string` is its byte sequence: `GoString = List Byte`, `len` is
  `List.length`, slicing `s[i:]` is `List.drop`, `s[:i]` is `List.take`.
* A `rune` (Go `int32`) is a `Nat`: every rune built here comes from at most
  four bytes and stays below `2 ^ 21`.
* Go `int` values (pixel sizes, line counts) are `Int`: on the 64-bit targets
  the sizes computed here stay far below `2 ^ 63`.
* `fixed.Int26_6` is a 32-bit signed integer: arithmetic on it is wrapped
  explicitly by `wrapInt32`.
-/

namespace Seize

/-! ## Strings and bytes -/

/-- One byte of a Go string. -/
abbrev Byte := Fin 256

/-- A Go string, as the sequence of its bytes. -/
abbrev GoString := List Byte

/-- Conversion `byte(x)`: keeps the low eight bits. -/
def toByte (n : Nat) : Byte := ⟨n % 256, Nat.mod_lt n (by decide)⟩

/-- An ASCII string literal as a Go string. -/
def lit (s : String) : GoString := s.toList.map (fun c => toByte c.toNat)

/-! ## Constants of `main.go` (lines 29-35) -/

/-- Constant `fontSize`. -/
def fontSize : Int := 24

/-- Constant `dpi`. -/
def dpi : Int := 72

/-- Constant `padding`. -/
def padding : Int := 10

/-! ## `unicode/utf8` and the `range` loop over a string -/

/-- Constant `utf8.RuneSelf`: bytes below it are single-byte runes. -/
def RuneSelf : Nat := 0x80

/-- Constant `runeError` (U+FFFD). -/
def runeError : Nat := 0xFFFD

/-- Constant `maxRune`. -/
def maxRune : Nat := 0x10FFFF

/-- Constant `surrogateMin`. -/
def surrogateMin : Nat := 0xD800

/-- Constant `surrogateMax`. -/
def surrogateMax : Nat := 0xDFFF

/-- Constant `t2 = 0b11000000`. -/
def t2 : Nat := 0xC0

/-- Constant `t3 = 0b11100000`. -/
def t3 : Nat := 0xE0

/-- Constant `t4 = 0b11110000`. -/
def t4 : Nat := 0xF0

/-- Constant `t5 = 0b11111000`. -/
def t5 : Nat := 0xF8

/-- Constant `tx = 0b10000000`. -/
def tx : Nat := 0x80

/-- Constant `maskx = 0b00111111`. -/
def maskx : Nat := 0x3F

/-- Constant `mask2 = 0b00011111`. -/
def mask2 : Nat := 0x1F

/-- Constant `mask3 = 0b00001111`. -/
def mask3 : Nat := 0x0F

/-- Constant `mask4 = 0b00000111`. -/
def mask4 : Nat := 0x07

/-- Constant `rune1Max = 1<<7 - 1`. -/
def rune1Max : Nat := 0x7F

/-- Constant `rune2Max = 1<<11 - 1`. -/
def rune2Max : Nat := 0x7FF

/-- Constant `rune3Max = 1<<16 - 1`. -/
def rune3Max : Nat := 0xFFFF

/-- Constant `locb = 0b10000000`, lowest continuation byte. -/
def locb : Nat := 0x80

/-- Constant `hicb = 0b10111111`, highest continuation byte. -/
def hicb : Nat := 0xBF

/-- The test `locb <= b && b <= hicb`. -/
def isCont (b : Byte) : Bool := decide (locb ≤ b.val) && decide (b.val ≤ hicb)

/-- Go runtime `decoderune(s, k)` on the suffix `s[k:]`: the rune that starts
the suffix and the number of bytes it takes (`pos - k`).  An empty suffix, an
invalid lead byte, a missing or invalid continuation byte, an overlong form, a
surrogate and a value above `maxRune` all give `(runeError, 1)`. -/
def decoderune (s : GoString) : Nat × Nat :=
  match s with
  | [] => (runeError, 1)
  | s0 :: rest =>
    if t2 ≤ s0.val ∧ s0.val < t3 then
      match rest with
      | s1 :: _ =>
        if isCont s1 then
          let r := ((s0.val &&& mask2) <<< 6) ||| (s1.val &&& maskx)
          if rune1Max < r then (r, 2) else (runeError, 1)
        else (runeError, 1)
      | [] => (runeError, 1)
    else if t3 ≤ s0.val ∧ s0.val < t4 then
      match rest with
      | s1 :: s2 :: _ =>
        if isCont s1 && isCont s2 then
          let r := ((s0.val &&& mask3) <<< 12) ||| ((s1.val &&& maskx) <<< 6)
            ||| (s2.val &&& maskx)
          if rune2Max < r ∧ ¬ (surrogateMin ≤ r ∧ r ≤ surrogateMax) then (r, 3)
          else (runeError, 1)
        else (runeError, 1)
      | _ => (runeError, 1)
    else if t4 ≤ s0.val ∧ s0.val < t5 then
      match rest with
      | s1 :: s2 :: s3 :: _ =>
        if isCont s1 && isCont s2 && isCont s3 then
          let r := ((s0.val &&& mask4) <<< 18) ||| ((s1.val &&& maskx) <<< 12)
            ||| ((s2.val &&& maskx) <<< 6) ||| (s3.val &&& maskx)
          if rune3Max < r ∧ r ≤ maxRune then (r, 4) else (runeError, 1)
        else (runeError, 1)
      | _ => (runeError, 1)
    else (runeError, 1)

/-- One iteration header of `for _, r := range text` on the non-empty rest of
the string: a byte below `RuneSelf` is the rune itself and takes one byte,
anything else goes through `decoderune`. -/
def rangeStep (s0 : Byte) (rest : GoString) : Nat × Nat :=
  if s0.val < RuneSelf then (s0.val, 1) else decoderune (s0 :: rest)

/-- The runes delivered by `for _, r := range s`, with the number of
iterations bounded by `fuel`. -/
def rangeFrom : Nat → GoString → List Nat
  | 0, _ => []
  | _ + 1, [] => []
  | fuel + 1, s0 :: rest =>
    (rangeStep s0 rest).1 :: rangeFrom fuel ((s0 :: rest).drop (rangeStep s0 rest).2)

/-- The runes delivered by `for _, r := range s`.  Every iteration consumes at
least one byte, so `len(s)` iterations are enough. -/
def rangeRunes (s : GoString) : List Nat := rangeFrom s.length s

/-- Function `utf8.AppendRune(p, r)`, for a rune that is not negative. -/
def AppendRune (p : List Byte) (r : Nat) : List Byte :=
  if r ≤ rune1Max then p ++ [toByte r]
  else if r ≤ rune2Max then
    p ++ [toByte (t2 ||| toByte (r >>> 6)), toByte (tx ||| (toByte r &&& maskx))]
  else if maxRune < r ∨ (surrogateMin ≤ r ∧ r ≤ surrogateMax) then
    p ++ [toByte (t3 ||| toByte (runeError >>> 12)),
          toByte (tx ||| (toByte (runeError >>> 6) &&& maskx)),
          toByte (tx ||| (toByte runeError &&& maskx))]
  else if r ≤ rune3Max then
    p ++ [toByte (t3 ||| toByte (r >>> 12)), toByte (tx ||| (toByte (r >>> 6) &&& maskx)),
          toByte (tx ||| (toByte r &&& maskx))]
  else
    p ++ [toByte (t4 ||| toByte (r >>> 18)), toByte (tx ||| (toByte (r >>> 12) &&& maskx)),
          toByte (tx ||| (toByte (r >>> 6) &&& maskx)), toByte (tx ||| (toByte r &&& maskx))]

/-- Method `(*strings.Builder).WriteRune`: appends the UTF-8 form of `r` to
the buffer. -/
def WriteRune (buf : List Byte) (r : Nat) : List Byte := AppendRune buf r

/-! ## `CleanText` (lines 46-59) -/

/-- Body of the loop of `CleanText` for one rune `r`, on the builder `buf`. -/
def cleanStep (buf : List Byte) (r : Nat) : List Byte :=
  if r ≥ 32 ∧ r ≤ 126 then WriteRune buf r
  else if r = 10 then WriteRune buf r
  else WriteRune buf 32

/-- Function `CleanText`: the builder starts empty, the loop body runs once per
rune of `text`, and the builder's content is returned. -/
def CleanText (text : GoString) : GoString := (rangeRunes text).foldl cleanStep []

/-! ## `encoding/hex` -/

/-- Errors that `parseHexColor` can return. -/
inductive HexError where
  /-- The error of `fmt.Errorf("invalid length, must be 6 hex characters")`. -/
  | invalidLength : HexError
  /-- Value `hex.InvalidByteError(b)`. -/
  | InvalidByteError (b : Byte) : HexError
  /-- Value `hex.ErrLength`. -/
  | ErrLength : HexError
  deriving DecidableEq, Repr

/-- Function `hex.fromHexChar`: the value of a hexadecimal digit, `none` for
the result `(0, false)`. -/
def fromHexChar (c : Byte) : Option Nat :=
  if 48 ≤ c.val ∧ c.val ≤ 57 then some (c.val - 48)
  else if 97 ≤ c.val ∧ c.val ≤ 102 then some (c.val - 97 + 10)
  else if 65 ≤ c.val ∧ c.val ≤ 70 then some (c.val - 65 + 10)
  else none

/-- Function `hex.Decode(dst, src)`: the bytes written to `dst[:n]` and the
error.  The loop takes the source two bytes at a time; a single byte left over
is reported as an invalid byte if it is one, as `ErrLength` otherwise. -/
def Decode : GoString → List Byte × Option HexError
  | [] => ([], none)
  | [p] =>
    match fromHexChar p with
    | none => ([], some (HexError.InvalidByteError p))
    | some _ => ([], some HexError.ErrLength)
  | p :: q :: rest =>
    match fromHexChar p with
    | none => ([], some (HexError.InvalidByteError p))
    | some a =>
      match fromHexChar q with
      | none => ([], some (HexError.InvalidByteError q))
      | some b => (toByte ((a <<< 4) ||| b) :: (Decode rest).1, (Decode rest).2)

/-- Function `hex.DecodeString`. -/
def DecodeString (s : GoString) : List Byte × Option HexError := Decode s

/-- Constant `hextable = "0123456789abcdef"`, indexed by a nibble. -/
def hextable (n : Nat) : Byte := (lit "0123456789abcdef").getD n 0

/-- Function `hex.EncodeToString`: two digits of `hextable` per byte. -/
def EncodeToString (src : List Byte) : GoString :=
  src.flatMap (fun v => [hextable (v.val >>> 4), hextable (v.val &&& 0x0f)])

/-! ## `strings` -/

/-- Function `strings.HasPrefix`. -/
def HasPrefix (s pre : GoString) : Bool :=
  decide (s.length ≥ pre.length) && decide (s.take pre.length = pre)

/-- Function `strings.TrimPrefix`. -/
def TrimPrefix (s pre : GoString) : GoString :=
  if HasPrefix s pre then s.drop pre.length else s

/-- Function `strings.IndexByte`: index of the first `c` in `s`, or `-1`. -/
def IndexByte : GoString → Byte → Int
  | [], _ => -1
  | b :: rest, c => if b = c then 0 else if IndexByte rest c < 0 then -1 else IndexByte rest c + 1

/-- The loop of `strings.genSplit` for a one-byte separator with
`sepSave = 0`: at most `n` pieces are cut off at the separator, the rest of
the string is the last piece. -/
def genSplitLoop (sep : Byte) : Nat → GoString → List GoString
  | 0, s => [s]
  | n + 1, s =>
    if IndexByte s sep < 0 then [s]
    else s.take (IndexByte s sep).toNat :: genSplitLoop sep n (s.drop ((IndexByte s sep).toNat + 1))

/-- Function `strings.Split(s, sep)` for a one-byte separator: `genSplit` with
`n = Count(s, sep) + 1` pieces (never more than `len(s) + 1`), so that the
loop runs while `i < Count(s, sep)`. -/
def Split (s : GoString) (sep : Byte) : List GoString := genSplitLoop sep (s.count sep) s

/-- The newline byte. -/
def newline : Byte := 10

/-! ## `parseHexColor` (lines 78-90) -/

/-- Type `color.RGBA`. -/
structure RGBA where
  /-- Red channel. -/
  R : Byte
  /-- Green channel. -/
  G : Byte
  /-- Blue channel. -/
  B : Byte
  /-- Alpha channel. -/
  A : Byte
  deriving DecidableEq, Repr

/-- Function `parseHexColor`: the colour and the error (`none` is `nil`).
`b[0]`, `b[1]`, `b[2]` are read only when `DecodeString` gave no error on six
bytes, so that `b` has three bytes. -/
def parseHexColor (s : GoString) : RGBA × Option HexError :=
  let c : RGBA := { R := 0, G := 0, B := 0, A := 0xff }
  let s := TrimPrefix s (lit "#")
  if s.length ≠ 6 then (c, some HexError.invalidLength)
  else
    match DecodeString s with
    | (_, some err) => (c, some err)
    | (b, none) => ({ c with R := b.getD 0 0, G := b.getD 1 0, B := b.getD 2 0 }, none)

/-! ## Layout in `main` (lines 189-200) -/

/-- The measuring loop of `main` (lines 191-197): `maxWidth` starts at the
value given and is raised to every larger `width`.  `measure line` stands for
`drawer.MeasureString(line).Ceil()`. -/
def maxWidthLoop (measure : GoString → Int) (maxWidth : Int) : List GoString → Int
  | [] => maxWidth
  | line :: rest =>
    if measure line > maxWidth then maxWidthLoop measure (measure line) rest
    else maxWidthLoop measure maxWidth rest

/-- Value `imgWidth` of `main` for the lines given (`var maxWidth int` starts
at zero). -/
def imgWidth (measure : GoString → Int) (lines : List GoString) : Int :=
  maxWidthLoop measure 0 lines + 2 * padding

/-- Value `imgHeight` of `main`; `lineHeight` stands for
`drawer.Face.Metrics().Height.Ceil()`. -/
def imgHeight (lineHeight : Int) (lines : List GoString) : Int :=
  lineHeight * (lines.length : Int) + 2 * padding

/-- The canvas size `(imgWidth, imgHeight)` that `main` computes from the text
read from standard input: the text is cleaned, split on newline and measured. -/
def canvasSize (measure : GoString → Int) (lineHeight : Int) (text : GoString) : Int × Int :=
  let lines := Split (CleanText text) newline
  (imgWidth measure lines, imgHeight lineHeight lines)

/-! ## The draw loop of `main` (lines 212-224) -/

/-- Conversion to `fixed.Int26_6` (an `int32`): two's complement wrap. -/
def wrapInt32 (x : Int) : Int := (x + 2 ^ 31) % 2 ^ 32 - 2 ^ 31

/-- Type `fixed.Point26_6`: both coordinates in 1/64 of a pixel. -/
structure Point26_6 where
  /-- Horizontal coordinate. -/
  X : Int
  /-- Vertical coordinate. -/
  Y : Int
  deriving DecidableEq, Repr

/-- Method `(*freetype.Context).PointToFixed` at the resolution `dpi` set by
`main`, for a whole number of points: `x * dpi * (64.0 / 72.0)` converted to
`fixed.Int26_6`.  At `x = fontSize` the floating-point product is the exact
value `1536`. -/
def PointToFixed (x : Int) : Int := wrapInt32 (x * dpi * 64 / 72)

/-- Function `freetype.Pt(x, y)`. -/
def Pt (x y : Int) : Point26_6 := { X := wrapInt32 (x * 64), Y := wrapInt32 (y * 64) }

/-- One iteration of the draw loop: the line, the cursor `pt` at the start of
the iteration, and whether `c.DrawString(line, pt)` was called. -/
structure DrawStep where
  /-- The line of this iteration. -/
  line : GoString
  /-- The cursor at the start of the iteration. -/
  pt : Point26_6
  /-- Whether `DrawString` was called. -/
  drawn : Bool
  deriving DecidableEq, Repr

/-- The draw loop of `main`, as the list of its iterations.  `drawOk line pt`
tells whether `c.DrawString(line, pt)` returns a nil error; when it does not,
`log.Fatalf` ends the run and no further iteration happens. -/
def drawLoop (drawOk : GoString → Point26_6 → Bool) (pt : Point26_6) :
    List GoString → List DrawStep
  | [] => []
  | line :: rest =>
    if line = [] then
      { line := line, pt := pt, drawn := false } ::
        drawLoop drawOk { pt with Y := wrapInt32 (pt.Y + PointToFixed fontSize) } rest
    else if drawOk line pt then
      { line := line, pt := pt, drawn := true } ::
        drawLoop drawOk { pt with Y := wrapInt32 (pt.Y + PointToFixed fontSize) } rest
    else [{ line := line, pt := pt, drawn := true }]

/-- The start value of the cursor (line 213):
`freetype.Pt(padding, padding+int(c.PointToFixed(fontSize)>>6))`. -/
def startPt : Point26_6 := Pt padding (padding + PointToFixed fontSize / 64)

/-- The iterations of the draw loop of `main` for the lines given. -/
def drawSteps (drawOk : GoString → Point26_6 → Bool) (lines : List GoString) : List DrawStep :=
  drawLoop drawOk startPt lines

/-- The pixel row of a cursor: its `Y` with the six fraction bits dropped. -/
def baseline (pt : Point26_6) : Int := pt.Y / 64

/-! ## Output file name (lines 37-44 and 226-232) -/

/-- Function `generateRandomHash`.  `rnd` is what `rand.Read` did to the
buffer of `n` bytes: `some src` when it filled it, byte `i` being `src i`,
and `none` when it returned an error, on which `log.Fatalf` ends the run. -/
def generateRandomHash (rnd : Option (Nat → Byte)) (n : Nat) : Option GoString :=
  match rnd with
  | none => none
  | some src => some ((EncodeToString ((List.range n).map src)).take n)

/-- Value `imageName` of `main` after lines 227-232. -/
def imageName (rnd : Option (Nat → Byte)) (outputFileFlag : GoString) : Option GoString :=
  if outputFileFlag = [] then (generateRandomHash rnd 5).map (fun h => h ++ lit ".png")
  else some (outputFileFlag ++ lit ".png")

/-! ## `uploadToS3` (lines 92-124) -/

/-- The path separator `/`. -/
def Separator : Byte := 47

/-- Function `filepath.Base` (Unix, no volume name): trailing separators are
dropped, then everything up to the last separator. -/
def Base (path : GoString) : GoString :=
  if path = [] then lit "."
  else
    let path := (path.reverse.dropWhile (fun b => b = Separator)).reverse
    let path := (path.reverse.takeWhile (fun b => b ≠ Separator)).reverse
    if path = [] then [Separator] else path

/-- The effects of `uploadToS3` on the world, in the order they happen. -/
inductive Effect where
  /-- Call `os.Getenv(name)`. -/
  | Getenv (name : GoString) : Effect
  /-- Call `log.Fatalf`, which ends the process. -/
  | Fatalf : Effect
  /-- Call `session.NewSession` with the region and the static credentials. -/
  | NewSession (region accessKey secretKey : GoString) : Effect
  /-- Call `s3.New`. -/
  | S3New : Effect
  /-- Call `os.Open(filename)`. -/
  | Open (filename : GoString) : Effect
  /-- Call `svc.PutObject` with the bucket and the key; the body is the file. -/
  | PutObject (bucket key : GoString) : Effect
  /-- The deferred `file.Close()`. -/
  | Close : Effect
  deriving DecidableEq, Repr

/-- How a call of `uploadToS3` ends. -/
inductive Outcome where
  /-- The process was ended by `log.Fatalf`. -/
  | fatal : Outcome
  /-- The function returned a non-nil error. -/
  | error : Outcome
  /-- The function returned nil. -/
  | ok : Outcome
  deriving DecidableEq, Repr

/-- What `uploadToS3` meets outside the program. -/
structure World where
  /-- The process environment: `os.Getenv`, the empty string for a variable
  that is not set. -/
  env : GoString → GoString
  /-- Whether `session.NewSession` returns a nil error. -/
  sessionOk : Bool
  /-- Whether `os.Open` returns a nil error. -/
  openOk : Bool
  /-- Whether `PutObject` returns a nil error. -/
  putOk : Bool

/-- Function `uploadToS3`: its trace of effects and its outcome. -/
def uploadToS3 (w : World) (filename : GoString) : List Effect × Outcome :=
  let awsAccessKey := w.env (lit "AWS_ACCESS_KEY_ID")
  let awsSecretKey := w.env (lit "AWS_SECRET_ACCESS_KEY")
  let bucketName := w.env (lit "AWS_BUCKET_NAME")
  let awsRegion := w.env (lit "AWS_REGION")
  let t0 := [Effect.Getenv (lit "AWS_ACCESS_KEY_ID"), Effect.Getenv (lit "AWS_SECRET_ACCESS_KEY"),
    Effect.Getenv (lit "AWS_BUCKET_NAME"), Effect.Getenv (lit "AWS_REGION")]
  if awsAccessKey = [] ∨ awsSecretKey = [] ∨ bucketName = [] ∨ awsRegion = [] then
    (t0 ++ [Effect.Fatalf], Outcome.fatal)
  else
    let t1 := t0 ++ [Effect.NewSession awsRegion awsAccessKey awsSecretKey]
    if ¬ w.sessionOk then (t1, Outcome.error)
    else
      let t2 := t1 ++ [Effect.S3New, Effect.Open filename]
      if ¬ w.openOk then (t2, Outcome.error)
      else
        let t3 := t2 ++ [Effect.PutObject bucketName (Base filename), Effect.Close]
        (t3, if w.putOk then Outcome.ok else Outcome.error)

/-- The colour stage of `main` (lines 166-175): both flags are parsed, and an
error of either ends the run through `log.Fatalf` (`none`) before any
rendering. -/
def mainColors (fontColorFlag bgColorFlag : GoString) : Option (RGBA × RGBA) :=
  match parseHexColor fontColorFlag with
  | (_, some _) => none
  | (fontColor, none) =>
    match parseHexColor bgColorFlag with
    | (_, some _) => none
    | (bgColor, none) => some (fontColor, bgColor)

/-! ## Notions used to state the properties -/

/-- The byte `b` is the hexadecimal digit of value `v`, in either case. -/
def IsHexDigit (b : Byte) (v : Nat) : Prop :=
  (48 ≤ b.val ∧ b.val ≤ 57 ∧ v = b.val - 48) ∨
  (97 ≤ b.val ∧ b.val ≤ 102 ∧ v = b.val - 87) ∨
  (65 ≤ b.val ∧ b.val ≤ 70 ∧ v = b.val - 55)

/-- The byte `b` is some hexadecimal digit. -/
def IsHex (b : Byte) : Prop :=
  (48 ≤ b.val ∧ b.val ≤ 57) ∨ (97 ≤ b.val ∧ b.val ≤ 102) ∨ (65 ≤ b.val ∧ b.val ≤ 70)

/-- The byte that one iteration of `CleanText` leaves in the builder for the
rune `r`. -/
def cleanByte (r : Nat) : Byte :=
  if (32 ≤ r ∧ r ≤ 126) ∨ r = 10 then toByte r else 32

/-! ## Facts about the `range` loop -/

theorem decoderune_size (s0 : Byte) (rest : GoString) :
    1 ≤ (decoderune (s0 :: rest)).2 ∧ (decoderune (s0 :: rest)).2 ≤ rest.length + 1 := by
  simp only [decoderune]
  split_ifs <;> (try split) <;> (try split_ifs) <;> simp

theorem decoderune_rune (s0 : Byte) (rest : GoString) :
    128 ≤ (decoderune (s0 :: rest)).1 := by
  simp only [decoderune]
  split_ifs <;> (try split) <;> (try split_ifs) <;>
    first
    | (simp [runeError]; done)
    | (rename_i h; exact h)
    | (rename_i h; exact le_trans (by decide : 128 ≤ 2048) h.1)
    | (rename_i h; exact le_trans (by decide : 128 ≤ 65536) h.1)

theorem rangeStep_size (s0 : Byte) (rest : GoString) :
    1 ≤ (rangeStep s0 rest).2 ∧ (rangeStep s0 rest).2 ≤ rest.length + 1 := by
  unfold rangeStep
  split_ifs
  · simp
  · exact decoderune_size s0 rest

theorem rangeStep_ascii (s0 : Byte) (rest : GoString) (h : s0.val < 128) :
    rangeStep s0 rest = (s0.val, 1) := by
  simp [rangeStep, RuneSelf, h]

theorem rangeStep_high (s0 : Byte) (rest : GoString) (h : 128 ≤ s0.val) :
    128 ≤ (rangeStep s0 rest).1 := by
  have h2 : ¬ s0.val < RuneSelf := by simp [RuneSelf]; omega
  simp only [rangeStep, h2, if_false]
  exact decoderune_rune s0 rest

theorem rangeFrom_fuel (n : Nat) : ∀ (m : Nat) (s : GoString), s.length ≤ n → s.length ≤ m →
    rangeFrom n s = rangeFrom m s := by
  induction n with
  | zero =>
    intro m s hn _
    have : s = [] := List.length_eq_zero.mp (Nat.le_zero.mp hn)
    subst this
    cases m <;> simp [rangeFrom]
  | succ n ih =>
    intro m s hn hm
    cases s with
    | nil => cases m <;> simp [rangeFrom]
    | cons s0 rest =>
      cases m with
      | zero => simp at hm
      | succ m =>
        simp only [rangeFrom]
        have hs := rangeStep_size s0 rest
        congr 1
        apply ih <;> simp only [List.length_drop, List.length_cons] at * <;> omega

theorem rangeRunes_nil : rangeRunes [] = [] := rfl

theorem rangeRunes_cons (s0 : Byte) (rest : GoString) :
    rangeRunes (s0 :: rest) =
      (rangeStep s0 rest).1 :: rangeRunes ((s0 :: rest).drop (rangeStep s0 rest).2) := by
  have hs := rangeStep_size s0 rest
  simp only [rangeRunes, List.length_cons, rangeFrom]
  congr 1
  apply rangeFrom_fuel <;> simp only [List.length_drop, List.length_cons] <;> omega

/-! ## Facts about `CleanText` -/

theorem cleanStep_eq (buf : List Byte) (r : Nat) : cleanStep buf r = buf ++ [cleanByte r] := by
  unfold cleanStep cleanByte WriteRune AppendRune rune1Max
  by_cases h1 : r ≥ 32 ∧ r ≤ 126
  · have h2 : r ≤ 127 := by omega
    simp [h1, h2]
  · by_cases h3 : r = 10
    · subst h3
      simp
    · have h4 : ¬ (32 ≤ r ∧ r ≤ 126) := h1
      simp [h1, h3, h4]
      rfl

theorem foldl_cleanStep (rs : List Nat) : ∀ buf : List Byte,
    rs.foldl cleanStep buf = buf ++ rs.map cleanByte := by
  induction rs with
  | nil => intro buf; simp
  | cons r rs ih => intro buf; simp [ih, cleanStep_eq]

theorem CleanText_eq_map (s : GoString) : CleanText s = (rangeRunes s).map cleanByte := by
  simp [CleanText, foldl_cleanStep]

theorem cleanByte_val (r : Nat) :
    (cleanByte r).val = if (32 ≤ r ∧ r ≤ 126) ∨ r = 10 then r else 32 := by
  unfold cleanByte
  split_ifs with h
  · simp only [toByte]
    omega
  · rfl

theorem cleanByte_ascii (r : Nat) : (cleanByte r).val < 128 := by
  rw [cleanByte_val]
  split_ifs with h <;> omega

theorem rangeRunes_ascii (t : GoString) (h : ∀ b ∈ t, b.val < 128) :
    rangeRunes t = t.map (fun b => b.val) := by
  induction t with
  | nil => rfl
  | cons b t ih =>
    have hb : b.val < 128 := h b (List.mem_cons_self _ _)
    rw [rangeRunes_cons, rangeStep_ascii b t hb]
    simp only [List.drop_succ_cons, List.drop_zero, List.map_cons]
    rw [ih (fun c hc => h c (List.mem_cons_of_mem _ hc))]

theorem rangeRunes_length_le (n : Nat) : ∀ s : GoString, s.length ≤ n →
    (rangeRunes s).length ≤ s.length := by
  induction n with
  | zero =>
    intro s hs
    have : s = [] := List.length_eq_zero.mp (Nat.le_zero.mp hs)
    subst this
    simp [rangeRunes_nil]
  | succ n ih =>
    intro s hs
    cases s with
    | nil => simp [rangeRunes_nil]
    | cons s0 rest =>
      have hsz := rangeStep_size s0 rest
      rw [rangeRunes_cons]
      have h1 := ih ((s0 :: rest).drop (rangeStep s0 rest).2)
        (by simp only [List.length_drop, List.length_cons] at *; omega)
      simp only [List.length_drop, List.length_cons] at *
      omega

theorem rangeRunes_CleanText (s : GoString) :
    rangeRunes (CleanText s) = (rangeRunes s).map (fun r => (cleanByte r).val) := by
  rw [rangeRunes_ascii]
  · rw [CleanText_eq_map, List.map_map]
    rfl
  · intro b hb
    rw [CleanText_eq_map, List.mem_map] at hb
    obtain ⟨r, _, rfl⟩ := hb
    exact cleanByte_ascii r

/-! ## Newlines and the `range` loop -/

theorem isCont_newline : isCont newline = false := by decide

theorem decoderune_append_newline (s0 : Byte) (a b : GoString) :
    decoderune (s0 :: (a ++ newline :: b)) = decoderune (s0 :: a) := by
  rcases a with _ | ⟨a1, _ | ⟨a2, _ | ⟨a3, a⟩⟩⟩ <;> rcases b with _ | ⟨b1, _ | ⟨b2, b⟩⟩ <;>
    simp only [decoderune, List.nil_append, List.cons_append, isCont_newline,
      Bool.and_false, Bool.false_and, if_false, Bool.false_eq_true, ite_self]

theorem rangeStep_append_newline (s0 : Byte) (a b : GoString) :
    rangeStep s0 (a ++ newline :: b) = rangeStep s0 a := by
  simp only [rangeStep, decoderune_append_newline]

theorem rangeRunes_append_newline (n : Nat) : ∀ (a b : GoString), a.length ≤ n →
    rangeRunes (a ++ newline :: b) = rangeRunes a ++ 10 :: rangeRunes b := by
  induction n with
  | zero =>
    intro a b ha
    have : a = [] := List.length_eq_zero.mp (Nat.le_zero.mp ha)
    subst this
    rw [List.nil_append, rangeRunes_cons, rangeRunes_nil]
    rfl
  | succ n ih =>
    intro a b ha
    cases a with
    | nil =>
      rw [List.nil_append, rangeRunes_cons, rangeRunes_nil]
      rfl
    | cons s0 a =>
      have hsz := rangeStep_size s0 a
      rw [List.cons_append, rangeRunes_cons, rangeRunes_cons, rangeStep_append_newline]
      rw [← List.cons_append, List.drop_append_of_le_length (by simpa using hsz.2)]
      rw [ih _ b (by simp only [List.length_drop, List.length_cons] at *; omega)]
      rfl

theorem CleanText_append_newline (a b : GoString) :
    CleanText (a ++ newline :: b) = CleanText a ++ newline :: CleanText b := by
  simp only [CleanText_eq_map, rangeRunes_append_newline a.length a b le_rfl, List.map_append,
    List.map_cons]
  rfl

/-! ## Facts about `strings.Split` -/

theorem IndexByte_of_not_mem (s : GoString) (c : Byte) (h : c ∉ s) : IndexByte s c = -1 := by
  induction s with
  | nil => rfl
  | cons b rest ih =>
    have hb : b ≠ c := fun e => h (e ▸ List.mem_cons_self _ _)
    have hr := ih (fun hc => h (List.mem_cons_of_mem _ hc))
    simp [IndexByte, hb, hr]

theorem IndexByte_append (a b : GoString) (c : Byte) (h : c ∉ a) :
    IndexByte (a ++ c :: b) c = a.length := by
  induction a with
  | nil => simp [IndexByte]
  | cons x a ih =>
    have hx : x ≠ c := fun e => h (e ▸ List.mem_cons_self _ _)
    have hr := ih (fun hc => h (List.mem_cons_of_mem _ hc))
    have hn : ¬ ((a.length : Int) < 0) := by omega
    show IndexByte (x :: (a ++ c :: b)) c = _
    simp only [IndexByte, hx, if_false, hr, List.length_cons, hn]
    push_cast
    rfl

theorem exists_first (c : Byte) (s : GoString) (h : c ∈ s) :
    ∃ a b, s = a ++ c :: b ∧ c ∉ a := by
  induction s with
  | nil => simp at h
  | cons x s ih =>
    by_cases hx : x = c
    · exact ⟨[], s, by simp [hx], by simp⟩
    · have hs : c ∈ s := by
        rcases List.mem_cons.mp h with e | e
        · exact absurd e.symm hx
        · exact e
      obtain ⟨a, b, rfl, ha⟩ := ih hs
      refine ⟨x :: a, b, by simp, ?_⟩
      intro hc
      rcases List.mem_cons.mp hc with e | e
      · exact hx e.symm
      · exact ha e

theorem genSplitLoop_of_not_mem (c : Byte) (n : Nat) (s : GoString) (h : c ∉ s) :
    genSplitLoop c n s = [s] := by
  cases n with
  | zero => rfl
  | succ n => simp [genSplitLoop, IndexByte_of_not_mem s c h]

theorem genSplitLoop_append (c : Byte) (n : Nat) (a b : GoString) (h : c ∉ a) :
    genSplitLoop c (n + 1) (a ++ c :: b) = a :: genSplitLoop c n b := by
  have hi := IndexByte_append a b c h
  have ht : (a ++ c :: b).take a.length = a := List.take_left' rfl
  have hd : (a ++ c :: b).drop (a.length + 1) = b := by
    rw [← List.drop_drop, List.drop_left' rfl]
    rfl
  have hn : ¬ ((a.length : Int) < 0) := by omega
  simp only [genSplitLoop, hi, if_false, Int.toNat_ofNat, ht, hd, hn]

theorem Split_of_not_mem (c : Byte) (s : GoString) (h : c ∉ s) : Split s c = [s] :=
  genSplitLoop_of_not_mem c _ s h

theorem Split_append (c : Byte) (a b : GoString) (h : c ∉ a) :
    Split (a ++ c :: b) c = a :: Split b c := by
  have hc : (a ++ c :: b).count c = b.count c + 1 := by
    simp [List.count_append, List.count_eq_zero_of_not_mem h]
  simp only [Split, hc, genSplitLoop_append c _ a b h]

theorem Split_length (c : Byte) (n : Nat) : ∀ s : GoString, s.length ≤ n →
    (Split s c).length = 1 + s.count c := by
  induction n with
  | zero =>
    intro s hs
    have : s = [] := List.length_eq_zero.mp (Nat.le_zero.mp hs)
    subst this
    rfl
  | succ n ih =>
    intro s hs
    by_cases hm : c ∈ s
    · obtain ⟨a, b, rfl, ha⟩ := exists_first c s hm
      have hb : b.length ≤ n := by
        simp only [List.length_append, List.length_cons] at hs
        omega
      rw [Split_append c a b ha, List.length_cons, ih b hb]
      simp [List.count_append, List.count_eq_zero_of_not_mem ha]
      omega
    · rw [Split_of_not_mem c s hm, List.count_eq_zero_of_not_mem hm]
      rfl

/-! ## `CleanText` keeps the newlines where they are -/

theorem rangeRunes_mem (n : Nat) : ∀ s : GoString, s.length ≤ n →
    ∀ r ∈ rangeRunes s, 128 ≤ r ∨ ∃ b ∈ s, b.val = r := by
  induction n with
  | zero =>
    intro s hs
    have : s = [] := List.length_eq_zero.mp (Nat.le_zero.mp hs)
    subst this
    simp [rangeRunes_nil]
  | succ n ih =>
    intro s hs r hr
    cases s with
    | nil => simp [rangeRunes_nil] at hr
    | cons s0 rest =>
      have hsz := rangeStep_size s0 rest
      rw [rangeRunes_cons] at hr
      rcases List.mem_cons.mp hr with e | e
      · by_cases h0 : s0.val < 128
        · rw [rangeStep_ascii s0 rest h0] at e
          exact Or.inr ⟨s0, List.mem_cons_self _ _, e.symm⟩
        · have := rangeStep_high s0 rest (by omega)
          exact Or.inl (e ▸ this)
      · have hlen : ((s0 :: rest).drop (rangeStep s0 rest).2).length ≤ n := by
          simp only [List.length_drop, List.length_cons] at *
          omega
        rcases ih _ hlen r e with h | ⟨b, hb, hbr⟩
        · exact Or.inl h
        · exact Or.inr ⟨b, List.mem_of_mem_drop hb, hbr⟩

theorem cleanByte_eq_newline (r : Nat) (h : cleanByte r = newline) : r = 10 := by
  have hv := cleanByte_val r
  rw [h] at hv
  have h10 : (newline : Byte).val = 10 := rfl
  rw [h10] at hv
  split_ifs at hv with hc <;> omega

theorem newline_not_mem_CleanText (a : GoString) (h : newline ∉ a) : newline ∉ CleanText a := by
  intro hc
  rw [CleanText_eq_map, List.mem_map] at hc
  obtain ⟨r, hr, hrc⟩ := hc
  have h10 := cleanByte_eq_newline r hrc
  rcases rangeRunes_mem a.length a le_rfl r hr with h1 | ⟨b, hb, hbr⟩
  · omega
  · have : b = newline := Fin.ext (by rw [hbr, h10]; rfl)
    exact h (this ▸ hb)

theorem Split_CleanText (n : Nat) : ∀ s : GoString, s.length ≤ n →
    Split (CleanText s) newline = (Split s newline).map CleanText := by
  induction n with
  | zero =>
    intro s hs
    have : s = [] := List.length_eq_zero.mp (Nat.le_zero.mp hs)
    subst this
    rfl
  | succ n ih =>
    intro s hs
    by_cases hm : newline ∈ s
    · obtain ⟨a, b, rfl, ha⟩ := exists_first newline s hm
      have hb : b.length ≤ n := by
        simp only [List.length_append, List.length_cons] at hs
        omega
      rw [CleanText_append_newline, Split_append newline _ _ (newline_not_mem_CleanText a ha),
        Split_append newline a b ha, List.map_cons, ih b hb]
    · rw [Split_of_not_mem newline s hm,
        Split_of_not_mem newline _ (newline_not_mem_CleanText s hm)]
      rfl

/-! ## Facts about `parseHexColor` -/

theorem fromHexChar_of_digit (b : Byte) (v : Nat) (h : IsHexDigit b v) :
    fromHexChar b = some v := by
  unfold IsHexDigit at h
  unfold fromHexChar
  rcases h with ⟨h1, h2, h3⟩ | ⟨h1, h2, h3⟩ | ⟨h1, h2, h3⟩
  · simp [h1, h2, h3]
  · have : ¬ (48 ≤ b.val ∧ b.val ≤ 57) := by omega
    simp only [this, if_false, h1, h2, and_self, if_true, h3, Option.some.injEq]
    omega
  · have n1 : ¬ (48 ≤ b.val ∧ b.val ≤ 57) := by omega
    have n2 : ¬ (97 ≤ b.val ∧ b.val ≤ 102) := by omega
    simp only [n1, n2, if_false, h1, h2, and_self, if_true, h3, Option.some.injEq]
    omega

theorem IsHexDigit_lt (b : Byte) (v : Nat) (h : IsHexDigit b v) : v < 16 := by
  unfold IsHexDigit at h
  omega

theorem fromHexChar_none (b : Byte) (h : ¬ IsHex b) : fromHexChar b = none := by
  unfold IsHex at h
  unfold fromHexChar
  have n1 : ¬ (48 ≤ b.val ∧ b.val ≤ 57) := by omega
  have n2 : ¬ (97 ≤ b.val ∧ b.val ≤ 102) := by omega
  have n3 : ¬ (65 ≤ b.val ∧ b.val ≤ 70) := by omega
  simp only [n1, n2, n3, if_false]

theorem Decode_error (n : Nat) : ∀ t : GoString, t.length ≤ n → (∃ b ∈ t, ¬ IsHex b) →
    (Decode t).2 ≠ none := by
  induction n using Nat.strong_induction_on with
  | _ n ih =>
    intro t hn hb
    match t, hn, hb with
    | [], _, hb => simp at hb
    | [p], _, _ =>
      simp only [Decode]
      cases fromHexChar p <;> simp
    | p :: q :: rest, hn, hb =>
      simp only [Decode]
      cases hp : fromHexChar p with
      | none => simp
      | some a =>
        cases hq : fromHexChar q with
        | none => simp
        | some c =>
          simp only
          obtain ⟨b, hmem, hbad⟩ := hb
          have hrest : b ∈ rest := by
            rcases List.mem_cons.mp hmem with e | e
            · subst e
              rw [fromHexChar_none b hbad] at hp
              cases hp
            · rcases List.mem_cons.mp e with e2 | e2
              · subst e2
                rw [fromHexChar_none b hbad] at hq
                cases hq
              · exact e2
          simp only [List.length_cons] at hn
          exact ih (n - 2) (by omega) rest (by omega) ⟨b, hrest, hbad⟩

theorem TrimPrefix_hash_cons (t : GoString) : TrimPrefix (35 :: t) (lit "#") = t := by
  have hl : lit "#" = [35] := by decide
  simp [TrimPrefix, HasPrefix, hl]

theorem TrimPrefix_hash_other (t : GoString) (h : ∀ u, t ≠ 35 :: u) :
    TrimPrefix t (lit "#") = t := by
  have hl : lit "#" = [35] := by decide
  cases t with
  | nil => simp [TrimPrefix, HasPrefix, hl]
  | cons b u =>
    have hb : b ≠ 35 := fun e => h u (by rw [e])
    simp [TrimPrefix, HasPrefix, hl, hb]

theorem parseHexColor_of_trim (s t : GoString) (h : TrimPrefix s (lit "#") = t) :
    parseHexColor s =
      if t.length ≠ 6 then (({ R := 0, G := 0, B := 0, A := 0xff } : RGBA), some HexError.invalidLength)
      else
        match DecodeString t with
        | (_, some err) => ({ R := 0, G := 0, B := 0, A := 0xff }, some err)
        | (b, none) => ({ R := b.getD 0 0, G := b.getD 1 0, B := b.getD 2 0, A := 0xff }, none) := by
  simp only [parseHexColor, h]

theorem parseHexColor_bad (s t : GoString) (h : TrimPrefix s (lit "#") = t)
    (hbad : t.length ≠ 6 ∨ ∃ b ∈ t, ¬ IsHex b) :
    (parseHexColor s).2 ≠ none ∧ (parseHexColor s).1 = { R := 0, G := 0, B := 0, A := 0xff } := by
  rw [parseHexColor_of_trim s t h]
  by_cases hl : t.length ≠ 6
  · simp [hl]
  · have hb : ∃ b ∈ t, ¬ IsHex b := by
      rcases hbad with h1 | h1
      · exact absurd h1 hl
      · exact h1
    have hd := Decode_error t.length t le_rfl hb
    simp only [hl, if_false, DecodeString]
    cases hd2 : (Decode t) with
    | mk bs e =>
      rw [hd2] at hd
      cases e with
      | none => exact absurd rfl hd
      | some err => simp

theorem parseHexColor_six (b1 b2 b3 b4 b5 b6 : Byte) (v1 v2 v3 v4 v5 v6 : Nat)
    (h1 : IsHexDigit b1 v1) (h2 : IsHexDigit b2 v2) (h3 : IsHexDigit b3 v3)
    (h4 : IsHexDigit b4 v4) (h5 : IsHexDigit b5 v5) (h6 : IsHexDigit b6 v6)
    (s : GoString) (h : TrimPrefix s (lit "#") = [b1, b2, b3, b4, b5, b6]) :
    parseHexColor s = (RGBA.mk (toByte ((v1 <<< 4) ||| v2)) (toByte ((v3 <<< 4) ||| v4))
      (toByte ((v5 <<< 4) ||| v6)) 255, none) := by
  rw [parseHexColor_of_trim s _ h]
  simp [DecodeString, Decode, fromHexChar_of_digit _ _ h1, fromHexChar_of_digit _ _ h2,
    fromHexChar_of_digit _ _ h3, fromHexChar_of_digit _ _ h4, fromHexChar_of_digit _ _ h5,
    fromHexChar_of_digit _ _ h6]

theorem nibbles_val (a b : Nat) (ha : a < 16) (hb : b < 16) :
    (toByte ((a <<< 4) ||| b)).val = 16 * a + b := by
  have h : ∀ x : Fin 16, ∀ y : Fin 16, ((x.val <<< 4) ||| y.val) % 256 = 16 * x.val + y.val := by
    decide
  exact h ⟨a, ha⟩ ⟨b, hb⟩

/-! ## Facts about the layout -/

theorem maxWidthLoop_spec (measure : GoString → Int) (lines : List GoString) : ∀ m : Int,
    m ≤ maxWidthLoop measure m lines ∧
    (∀ l ∈ lines, measure l ≤ maxWidthLoop measure m lines) ∧
    (maxWidthLoop measure m lines = m ∨ ∃ l ∈ lines, maxWidthLoop measure m lines = measure l) := by
  induction lines with
  | nil => intro m; simp [maxWidthLoop]
  | cons line rest ih =>
    intro m
    simp only [maxWidthLoop]
    split_ifs with h
    · obtain ⟨h1, h2, h3⟩ := ih (measure line)
      refine ⟨by omega, ?_, ?_⟩
      · intro l hl
        rcases List.mem_cons.mp hl with e | e
        · rw [e]; exact h1
        · exact h2 l e
      · right
        rcases h3 with e | ⟨l, hl, e⟩
        · exact ⟨line, List.mem_cons_self _ _, e⟩
        · exact ⟨l, List.mem_cons_of_mem _ hl, e⟩
    · obtain ⟨h1, h2, h3⟩ := ih m
      refine ⟨h1, ?_, ?_⟩
      · intro l hl
        rcases List.mem_cons.mp hl with e | e
        · rw [e]; omega
        · exact h2 l e
      · rcases h3 with e | ⟨l, hl, e⟩
        · exact Or.inl e
        · exact Or.inr ⟨l, List.mem_cons_of_mem _ hl, e⟩

theorem maxWidthLoop_attained (measure : GoString → Int) (lines : List GoString)
    (hn : lines ≠ []) (hw : ∀ l ∈ lines, 0 ≤ measure l) :
    ∃ l ∈ lines, maxWidthLoop measure 0 lines = measure l := by
  obtain ⟨_, h2, h3⟩ := maxWidthLoop_spec measure lines 0
  rcases h3 with e | h
  · cases lines with
    | nil => exact absurd rfl hn
    | cons l rest =>
      refine ⟨l, List.mem_cons_self _ _, ?_⟩
      have a := h2 l (List.mem_cons_self _ _)
      have b := hw l (List.mem_cons_self _ _)
      omega
  · exact h

theorem Split_hello_world :
    Split (CleanText (lit "Hello\nWorld")) newline = [lit "Hello", lit "World"] := by decide

/-! ## Facts about the draw loop -/

theorem wrapInt32_add (a b : Int) : wrapInt32 (wrapInt32 a + b) = wrapInt32 (a + b) := by
  unfold wrapInt32
  omega

theorem PointToFixed_fontSize : PointToFixed fontSize = 1536 := by decide

theorem startPt_eq : startPt = { X := 640, Y := 2176 } := by decide

theorem drawLoop_step (drawOk : GoString → Point26_6 → Bool) (lines : List GoString) :
    ∀ (pt : Point26_6) (i : Nat) (st : DrawStep), (drawLoop drawOk pt lines)[i]? = some st →
      lines[i]? = some st.line ∧ st.pt.X = pt.X ∧
      st.pt.Y = (if i = 0 then pt.Y else wrapInt32 (pt.Y + 1536 * (i : Int))) ∧
      st.drawn = decide (st.line ≠ []) := by
  induction lines with
  | nil => intro pt i st h; simp [drawLoop] at h
  | cons line rest ih =>
    intro pt i st h
    have key : ∀ j st, (drawLoop drawOk
        { pt with Y := wrapInt32 (pt.Y + PointToFixed fontSize) } rest)[j]? = some st →
        rest[j]? = some st.line ∧ st.pt.X = pt.X ∧
        st.pt.Y = wrapInt32 (pt.Y + 1536 * ((j + 1 : Nat) : Int)) ∧
        st.drawn = decide (st.line ≠ []) := by
      intro j st hj
      obtain ⟨a, b, c, d⟩ := ih _ j st hj
      refine ⟨a, b, ?_, d⟩
      rw [c, PointToFixed_fontSize]
      split_ifs with hj0
      · subst hj0
        simp
      · rw [wrapInt32_add]
        congr 1
        push_cast
        ring
    simp only [drawLoop] at h
    split_ifs at h with he hok
    · cases i with
      | zero =>
        simp only [List.getElem?_cons_zero, Option.some.injEq] at h
        subst h
        simp [he]
      | succ j =>
        simp only [List.getElem?_cons_succ] at h
        obtain ⟨a, b, c, d⟩ := key j st h
        exact ⟨by simpa using a, b, by simpa using c, d⟩
    · cases i with
      | zero =>
        simp only [List.getElem?_cons_zero, Option.some.injEq] at h
        subst h
        simp [he]
      | succ j =>
        simp only [List.getElem?_cons_succ] at h
        obtain ⟨a, b, c, d⟩ := key j st h
        exact ⟨by simpa using a, b, by simpa using c, d⟩
    · cases i with
      | zero =>
        simp only [List.getElem?_cons_zero, Option.some.injEq] at h
        subst h
        simp [he]
      | succ j => simp at h

theorem drawLoop_length (drawOk : GoString → Point26_6 → Bool)
    (hok : ∀ l p, drawOk l p = true) (lines : List GoString) :
    ∀ pt : Point26_6, (drawLoop drawOk pt lines).length = lines.length := by
  induction lines with
  | nil => intro pt; rfl
  | cons line rest ih =>
    intro pt
    simp only [drawLoop, hok]
    split_ifs <;> simp [ih]

/-! ## Facts about the file name and the upload -/

theorem hextable_range : ∀ n : Fin 16,
    (48 ≤ (hextable n.val).val ∧ (hextable n.val).val ≤ 57) ∨
    (97 ≤ (hextable n.val).val ∧ (hextable n.val).val ≤ 102) := by decide

theorem EncodeToString_length (src : List Byte) : (EncodeToString src).length = 2 * src.length := by
  induction src with
  | nil => rfl
  | cons v rest ih =>
    simp only [EncodeToString, List.flatMap_cons, List.length_append, List.length_cons,
      List.length_nil] at *
    omega

theorem EncodeToString_chars (src : List Byte) : ∀ c ∈ EncodeToString src,
    (48 ≤ c.val ∧ c.val ≤ 57) ∨ (97 ≤ c.val ∧ c.val ≤ 102) := by
  intro c hc
  simp only [EncodeToString, List.mem_flatMap, List.mem_cons, List.mem_singleton,
    List.not_mem_nil, or_false] at hc
  obtain ⟨v, _, hv⟩ := hc
  have hhi : v.val >>> 4 < 16 := by
    rw [Nat.shiftRight_eq_div_pow]
    have := v.isLt
    omega
  have hlo : v.val &&& 0x0f < 16 := Nat.and_lt_two_pow v.val (by decide : 15 < 2 ^ 4)
  rcases hv with e | e
  · rw [e]; exact hextable_range ⟨_, hhi⟩
  · rw [e]; exact hextable_range ⟨_, hlo⟩

theorem generateRandomHash_spec (src : Nat → Byte) (n : Nat) :
    ∃ h, generateRandomHash (some src) n = some h ∧ h.length = n ∧
      ∀ c ∈ h, (48 ≤ c.val ∧ c.val ≤ 57) ∨ (97 ≤ c.val ∧ c.val ≤ 102) := by
  refine ⟨_, rfl, ?_, ?_⟩
  · simp [EncodeToString_length]
    omega
  · intro c hc
    exact EncodeToString_chars _ c (List.mem_of_mem_take hc)

theorem takeWhile_ne_append (sep : Byte) (l r : List Byte) (h : sep ∉ l) :
    (l ++ sep :: r).takeWhile (fun b => b ≠ sep) = l := by
  induction l with
  | nil => simp
  | cons x l ih =>
    have hx : x ≠ sep := fun e => h (e ▸ List.mem_cons_self _ _)
    have ih2 := ih (fun hc => h (List.mem_cons_of_mem _ hc))
    rw [List.cons_append, List.takeWhile_cons, if_pos (by simpa using hx), ih2]

theorem takeWhile_ne_self (sep : Byte) (l : List Byte) (h : sep ∉ l) :
    l.takeWhile (fun b => b ≠ sep) = l := by
  induction l with
  | nil => simp
  | cons x l ih =>
    have hx : x ≠ sep := fun e => h (e ▸ List.mem_cons_self _ _)
    have ih2 := ih (fun hc => h (List.mem_cons_of_mem _ hc))
    rw [List.takeWhile_cons, if_pos (by simpa using hx), ih2]

theorem dropWhile_eq_append (sep : Byte) (l r : List Byte) (hl : l ≠ []) (h : sep ∉ l) :
    (l ++ r).dropWhile (fun b => b = sep) = l ++ r := by
  cases l with
  | nil => exact absurd rfl hl
  | cons x l =>
    have hx : x ≠ sep := fun e => h (e ▸ List.mem_cons_self _ _)
    rw [List.cons_append, List.dropWhile_cons, if_neg (by simpa using hx)]

theorem Base_name (name : GoString) (hn : name ≠ []) (hs : Separator ∉ name) :
    Base name = name := by
  have hr : name.reverse ≠ [] := by simpa using hn
  have hsr : Separator ∉ name.reverse := by simpa using hs
  have e1 : name.reverse.dropWhile (fun b => b = Separator) = name.reverse := by
    have := dropWhile_eq_append Separator name.reverse [] hr hsr
    simpa using this
  have e2 := takeWhile_ne_self Separator name.reverse hsr
  unfold Base
  simp only [hn, if_false, e1, List.reverse_reverse, e2]

theorem Base_join (dir name : GoString) (hn : name ≠ []) (hs : Separator ∉ name) :
    Base (dir ++ Separator :: name) = name := by
  have hr : name.reverse ≠ [] := by simpa using hn
  have hsr : Separator ∉ name.reverse := by simpa using hs
  have hne : dir ++ Separator :: name ≠ [] := by simp
  have hrev : (dir ++ Separator :: name).reverse = name.reverse ++ Separator :: dir.reverse := by
    simp
  have e1 := dropWhile_eq_append Separator name.reverse (Separator :: dir.reverse) hr hsr
  have e2 := takeWhile_ne_append Separator name.reverse dir.reverse hsr
  unfold Base
  simp only [hne, if_false, hrev, e1, List.reverse_reverse, e2, hn]

/-! ## The sanitizer -/

/-- C1: `CleanText s` has one character per character of `s`, in the same
order: the character counts agree, and at every position the output character
is the input character when its code is in 32..126 or is 10 (newline), and the
space (code 32) otherwise.  Characters are the runes of the `range` loop. -/
theorem CleanText_char_for_char (s : GoString) :
    (rangeRunes (CleanText s)).length = (rangeRunes s).length ∧
    ∀ (i r : Nat), (rangeRunes s)[i]? = some r →
      (rangeRunes (CleanText s))[i]? = some (if (32 ≤ r ∧ r ≤ 126) ∨ r = 10 then r else 32) := by
  rw [rangeRunes_CleanText]
  refine ⟨by simp, ?_⟩
  intro i r h
  rw [List.getElem?_map, h, Option.map_some', cleanByte_val]

/-- Witness of C1: in the three bytes `C3 A9 0A` ("é" and a newline) the first
character is U+00E9, and the first character of the cleaned text is a space. -/
theorem CleanText_char_for_char_witness :
    (rangeRunes [0xC3, 0xA9, 10])[0]? = some 233 ∧
    (rangeRunes (CleanText [0xC3, 0xA9, 10]))[0]? =
      some (if (32 ≤ 233 ∧ 233 ≤ 126) ∨ 233 = 10 then 233 else 32) :=
  ⟨by decide, (CleanText_char_for_char [0xC3, 0xA9, 10]).2 0 233 (by decide)⟩

/-- Counterexample to C2: the two bytes `C3 A9` (the letter "é") are cleaned to
the single byte of a space, so the byte length drops from 2 to 1. -/
theorem CleanText_length_multibyte :
    (CleanText [0xC3, 0xA9]).length = 1 ∧ ([0xC3, 0xA9] : GoString).length = 2 ∧
    (CleanText [0xC3, 0xA9]).length ≠ ([0xC3, 0xA9] : GoString).length := by decide

/-- C2 as amended: the byte length of `CleanText s` is the number of runes of
`s`, which is at most the byte length of `s`, and it is the byte length of `s`
when every byte of `s` is below 0x80. -/
theorem CleanText_length_runes (s : GoString) :
    (CleanText s).length = (rangeRunes s).length ∧ (CleanText s).length ≤ s.length ∧
    ((∀ b ∈ s, b.val < 128) → (CleanText s).length = s.length) := by
  have h1 : (CleanText s).length = (rangeRunes s).length := by simp [CleanText_eq_map]
  refine ⟨h1, ?_, ?_⟩
  · rw [h1]
    exact rangeRunes_length_le s.length s le_rfl
  · intro h
    rw [h1, rangeRunes_ascii s h, List.length_map]

/-- Witness of C2 as amended, on the ASCII text `a<TAB>b`. -/
theorem CleanText_length_runes_witness :
    (∀ b ∈ ([97, 9, 98] : GoString), b.val < 128) ∧
    (CleanText [97, 9, 98]).length = ([97, 9, 98] : GoString).length :=
  have h : ∀ b ∈ ([97, 9, 98] : GoString), b.val < 128 := by
    intro b hb
    simp only [List.mem_cons, List.mem_singleton, List.not_mem_nil, or_false] at hb
    rcases hb with rfl | rfl | rfl <;> decide
  ⟨h, (CleanText_length_runes [97, 9, 98]).2.2 h⟩

/-- C7: cleaning keeps the line breaks.  Splitting the cleaned text on newline
gives the cleaned lines of the text, line by line, so the number of lines is
the same, and it is one more than the number of newline bytes.  The empty
input has the one empty line, and its canvas is `lineHeight + 2*padding`
high. -/
theorem CleanText_keeps_line_breaks (s : GoString) :
    Split (CleanText s) newline = (Split s newline).map CleanText ∧
    (Split (CleanText s) newline).length = (Split s newline).length ∧
    (Split s newline).length = 1 + s.count newline ∧
    Split (CleanText []) newline = [[]] ∧
    ∀ (measure : GoString → Int) (lineHeight : Int),
      (canvasSize measure lineHeight []).2 = lineHeight + 2 * padding := by
  have h := Split_CleanText s.length s le_rfl
  refine ⟨h, by rw [h, List.length_map], Split_length newline s.length s le_rfl, rfl, ?_⟩
  intro measure lineHeight
  show lineHeight * ((1 : Nat) : Int) + 2 * padding = lineHeight + 2 * padding
  simp

/-! ## Colours -/

/-- C3: when the string without its leading `#` (if it has one) is not six
bytes long, or holds a byte that is not a hexadecimal digit, `parseHexColor`
returns an error, and `main` ends with `log.Fatalf` whichever flag held it. -/
theorem parseHexColor_rejects_malformed (s t : GoString)
    (hs : s = 35 :: t ∨ (s = t ∧ ∀ u, t ≠ 35 :: u))
    (hbad : t.length ≠ 6 ∨ ∃ b ∈ t, ¬ IsHex b) :
    (parseHexColor s).2 ≠ none ∧
    ∀ other : GoString, mainColors s other = none ∧ mainColors other s = none := by
  have ht : TrimPrefix s (lit "#") = t := by
    rcases hs with e | ⟨e, hu⟩
    · rw [e]; exact TrimPrefix_hash_cons t
    · rw [e]; exact TrimPrefix_hash_other t hu
  have herr := (parseHexColor_bad s t ht hbad).1
  refine ⟨herr, fun other => ⟨?_, ?_⟩⟩
  · unfold mainColors
    cases hp : parseHexColor s with
    | mk c e =>
      rw [hp] at herr
      cases e with
      | none => exact absurd rfl herr
      | some err => rfl
  · unfold mainColors
    cases ho : parseHexColor other with
    | mk c e =>
      cases e with
      | some err => rfl
      | none =>
        cases hp : parseHexColor s with
        | mk c2 e2 =>
          rw [hp] at herr
          cases e2 with
          | none => exact absurd rfl herr
          | some err => rfl

/-- Witness of C3 on `#12345g`: stripped of `#` it has six bytes, the last of
which is no hexadecimal digit. -/
theorem parseHexColor_rejects_malformed_witness :
    (lit "#12345g" = 35 :: lit "12345g" ∨
      (lit "#12345g" = lit "12345g" ∧ ∀ u, lit "12345g" ≠ 35 :: u)) ∧
    ((lit "12345g").length ≠ 6 ∨ ∃ b ∈ lit "12345g", ¬ IsHex b) ∧
    (parseHexColor (lit "#12345g")).2 ≠ none :=
  ⟨Or.inl (by decide), Or.inr ⟨103, by decide, by unfold IsHex; decide⟩,
    (parseHexColor_rejects_malformed (lit "#12345g") (lit "12345g") (Or.inl (by decide))
      (Or.inr ⟨103, by decide, by unfold IsHex; decide⟩)).1⟩

/-- Counterexample to C4: for `s = "#FFFFFF"` the string `"#" + s` is rejected
(only one `#` is stripped, seven bytes remain) while `s` parses to white. -/
theorem parseHexColor_double_hash :
    (parseHexColor (lit "#" ++ lit "#FFFFFF")).2 = some HexError.invalidLength ∧
    (parseHexColor (lit "#FFFFFF")).2 = none ∧
    parseHexColor (lit "#" ++ lit "#FFFFFF") ≠ parseHexColor (lit "#FFFFFF") := by decide

/-- C4 as amended: for every string `s` that does not itself begin with `#`,
`parseHexColor("#" + s)` and `parseHexColor(s)` return the same colour and the
same error. -/
theorem parseHexColor_hash_optional (s : GoString) (h : ∀ u, s ≠ 35 :: u) :
    parseHexColor (lit "#" ++ s) = parseHexColor s := by
  have hl : lit "#" ++ s = 35 :: s := by
    have : lit "#" = [35] := by decide
    rw [this]
    rfl
  rw [hl, parseHexColor_of_trim (35 :: s) s (TrimPrefix_hash_cons s),
    parseHexColor_of_trim s s (TrimPrefix_hash_other s h)]

/-- Witness of C4 as amended, on `181414`. -/
theorem parseHexColor_hash_optional_witness :
    (∀ u, ([49, 56, 49, 52, 49, 52] : GoString) ≠ 35 :: u) ∧
    parseHexColor (lit "#" ++ [49, 56, 49, 52, 49, 52]) = parseHexColor [49, 56, 49, 52, 49, 52] :=
  ⟨fun _ h => absurd (List.cons.inj h).1 (by decide),
    parseHexColor_hash_optional [49, 56, 49, 52, 49, 52]
      (fun _ h => absurd (List.cons.inj h).1 (by decide))⟩

/-- C5: six hexadecimal digits `h1..h6` of either case, with or without one
leading `#`, parse without error to the colour with `R = 16*h1+h2`,
`G = 16*h3+h4`, `B = 16*h5+h6` and alpha 255; the default flags `FFFFFF` and
`181414` give (255,255,255,255) and (24,20,20,255). -/
theorem parseHexColor_six_digits (b1 b2 b3 b4 b5 b6 : Byte) (v1 v2 v3 v4 v5 v6 : Nat)
    (h1 : IsHexDigit b1 v1) (h2 : IsHexDigit b2 v2) (h3 : IsHexDigit b3 v3)
    (h4 : IsHexDigit b4 v4) (h5 : IsHexDigit b5 v5) (h6 : IsHexDigit b6 v6) :
    (parseHexColor [b1, b2, b3, b4, b5, b6]).2 = none ∧
    ((parseHexColor [b1, b2, b3, b4, b5, b6]).1.R.val = 16 * v1 + v2 ∧
     (parseHexColor [b1, b2, b3, b4, b5, b6]).1.G.val = 16 * v3 + v4 ∧
     (parseHexColor [b1, b2, b3, b4, b5, b6]).1.B.val = 16 * v5 + v6 ∧
     (parseHexColor [b1, b2, b3, b4, b5, b6]).1.A.val = 255) ∧
    parseHexColor (lit "#" ++ [b1, b2, b3, b4, b5, b6]) = parseHexColor [b1, b2, b3, b4, b5, b6] ∧
    parseHexColor (lit "FFFFFF") = ({ R := 255, G := 255, B := 255, A := 255 }, none) ∧
    parseHexColor (lit "181414") = ({ R := 24, G := 20, B := 20, A := 255 }, none) := by
  have hv1 : b1.val ≠ 35 := by
    unfold IsHexDigit at h1
    omega
  have hb1 : b1 ≠ 35 := fun e => hv1 (by rw [e]; rfl)
  have hu : ∀ u, [b1, b2, b3, b4, b5, b6] ≠ 35 :: u := fun u e => hb1 (List.cons.inj e).1
  have hp := parseHexColor_six b1 b2 b3 b4 b5 b6 v1 v2 v3 v4 v5 v6 h1 h2 h3 h4 h5 h6 _
    (TrimPrefix_hash_other _ hu)
  have hq := parseHexColor_six b1 b2 b3 b4 b5 b6 v1 v2 v3 v4 v5 v6 h1 h2 h3 h4 h5 h6 _
    (TrimPrefix_hash_cons _)
  have hl : lit "#" ++ [b1, b2, b3, b4, b5, b6] = 35 :: [b1, b2, b3, b4, b5, b6] := by
    have : lit "#" = [35] := by decide
    rw [this]
    rfl
  refine ⟨by rw [hp], ⟨?_, ?_, ?_, ?_⟩, by rw [hl, hq, hp], by decide, by decide⟩
  · rw [hp]
    exact nibbles_val v1 v2 (IsHexDigit_lt _ _ h1) (IsHexDigit_lt _ _ h2)
  · rw [hp]
    exact nibbles_val v3 v4 (IsHexDigit_lt _ _ h3) (IsHexDigit_lt _ _ h4)
  · rw [hp]
    exact nibbles_val v5 v6 (IsHexDigit_lt _ _ h5) (IsHexDigit_lt _ _ h6)
  · rw [hp]
    rfl

/-- Witness of C5 on `aB09fE`: digits of values 10, 11, 0, 9, 15, 14. -/
theorem parseHexColor_six_digits_witness :
    (IsHexDigit 97 10 ∧ IsHexDigit 66 11 ∧ IsHexDigit 48 0 ∧ IsHexDigit 57 9 ∧
      IsHexDigit 102 15 ∧ IsHexDigit 69 14) ∧
    (parseHexColor [97, 66, 48, 57, 102, 69]).1.R.val = 16 * 10 + 11 :=
  ⟨⟨by unfold IsHexDigit; decide, by unfold IsHexDigit; decide, by unfold IsHexDigit; decide,
      by unfold IsHexDigit; decide, by unfold IsHexDigit; decide, by unfold IsHexDigit; decide⟩,
    (parseHexColor_six_digits 97 66 48 57 102 69 10 11 0 9 15 14
      (by unfold IsHexDigit; decide) (by unfold IsHexDigit; decide)
      (by unfold IsHexDigit; decide) (by unfold IsHexDigit; decide)
      (by unfold IsHexDigit; decide) (by unfold IsHexDigit; decide)).2.1.1⟩

/-! ## Layout -/

/-- C6: for `n >= 1` lines of non-negative measured widths and line height
`h`, the canvas is `h*n + 2*padding` high and `max(w_1..w_n) + 2*padding` wide
with `padding = 10`: the width is that of some line plus `2*padding`, and is at
least the width of every line plus `2*padding`.  For the text `Hello`,
newline, `World` the canvas is `2*h + 20` high and the wider of the two
widths plus 20 wide. -/
theorem canvas_dimensions (measure : GoString → Int) (lineHeight : Int) (lines : List GoString)
    (hn : 1 ≤ lines.length) (hw : ∀ l ∈ lines, 0 ≤ measure l) :
    padding = 10 ∧
    imgHeight lineHeight lines = lineHeight * (lines.length : Int) + 2 * 10 ∧
    (∃ l ∈ lines, imgWidth measure lines = measure l + 2 * 10) ∧
    (∀ l ∈ lines, imgWidth measure lines ≥ measure l + 2 * 10) ∧
    (lines = [lit "Hello", lit "World"] →
      canvasSize measure lineHeight (lit "Hello\nWorld") =
        (max (measure (lit "Hello")) (measure (lit "World")) + 20, 2 * lineHeight + 20)) := by
  have hne : lines ≠ [] := by
    intro e
    rw [e] at hn
    simp at hn
  obtain ⟨l, hl, hmax⟩ := maxWidthLoop_attained measure lines hne hw
  have hub := (maxWidthLoop_spec measure lines 0).2.1
  refine ⟨rfl, rfl, ⟨l, hl, ?_⟩, ?_, ?_⟩
  · simp only [imgWidth, padding, hmax]
  · intro l2 hl2
    have := hub l2 hl2
    simp only [imgWidth, padding]
    omega
  · intro e
    subst e
    have h1 := hub (lit "Hello") (by simp)
    have h2 := hub (lit "World") (by simp)
    have h3 : l = lit "Hello" ∨ l = lit "World" := by simpa using hl
    have hm : maxWidthLoop measure 0 [lit "Hello", lit "World"] =
        max (measure (lit "Hello")) (measure (lit "World")) := by
      rcases h3 with e | e <;> rw [e] at hmax <;> omega
    simp only [canvasSize, Split_hello_world, imgWidth, imgHeight, hm, padding,
      List.length_cons, List.length_nil]
    refine Prod.ext rfl ?_
    simp only
    push_cast
    ring

/-- Witness of C6: the two lines `Hello` and `World!` at 14 pixels a byte. -/
theorem canvas_dimensions_witness :
    1 ≤ [lit "Hello", lit "World!"].length ∧
    imgHeight 28 [lit "Hello", lit "World!"] =
      28 * (([lit "Hello", lit "World!"].length : Nat) : Int) + 2 * 10 :=
  ⟨by decide,
    (canvas_dimensions (fun l => 14 * (l.length : Int)) 28 [lit "Hello", lit "World!"]
      (by decide) (fun l _ => by positivity)).2.1⟩

/-! ## Output file name -/

/-- C8: a non-empty name `x` given with `-oF` gives the file name `x.png`
(`foo` gives `foo.png`); with the flag empty the name is
`generateRandomHash(5)` followed by `.png`; and for every output of the random
source `generateRandomHash(n)` is exactly `n` bytes long, each a digit `0-9`
or a letter `a-f` (so five of them for `n = 5`). -/
theorem output_file_name (rnd : Option (Nat → Byte)) (src : Nat → Byte) (n : Nat) :
    (∀ x : GoString, x ≠ [] → imageName rnd x = some (x ++ lit ".png")) ∧
    imageName rnd (lit "foo") = some (lit "foo.png") ∧
    (∃ h, generateRandomHash (some src) 5 = some h ∧ imageName (some src) [] = some (h ++ lit ".png") ∧
      h.length = 5 ∧ ∀ c ∈ h, (48 ≤ c.val ∧ c.val ≤ 57) ∨ (97 ≤ c.val ∧ c.val ≤ 102)) ∧
    (∃ h, generateRandomHash (some src) n = some h ∧ h.length = n ∧
      ∀ c ∈ h, (48 ≤ c.val ∧ c.val ≤ 57) ∨ (97 ≤ c.val ∧ c.val ≤ 102)) := by
  refine ⟨?_, ?_, ?_, generateRandomHash_spec src n⟩
  · intro x hx
    simp [imageName, hx]
  · have hf : lit "foo" ≠ [] := by decide
    have hp : lit "foo" ++ lit ".png" = lit "foo.png" := by decide
    simp [imageName, hf, hp]
  · obtain ⟨h, h1, h2, h3⟩ := generateRandomHash_spec src 5
    exact ⟨h, h1, by simp [imageName, h1], h2, h3⟩

/-- Witness of C8: the flag `-oF=out` gives `out.png`. -/
theorem output_file_name_witness :
    lit "out" ≠ [] ∧ imageName none (lit "out") = some (lit "out" ++ lit ".png") :=
  ⟨by decide, (output_file_name none (fun _ => 0) 5).1 (lit "out") (by decide)⟩

/-! ## Upload -/

/-- C9: when one of `AWS_ACCESS_KEY_ID`, `AWS_SECRET_ACCESS_KEY`,
`AWS_BUCKET_NAME`, `AWS_REGION` reads as the empty string, `uploadToS3` ends
in `log.Fatalf` right after reading the environment: its trace holds no
`NewSession`, no `Open` and no `PutObject`, and ends with `Fatalf`.  When all
four are set, every `PutObject` of the trace goes to the bucket named, under
the key `filepath.Base(filename)`, and there is one when the session and the
file open succeed; `Base` strips the directory: `dir/name` gives `name`, and a
`name` without directory is kept. -/
theorem uploadToS3_environment (w : World) (filename : GoString) :
    ((w.env (lit "AWS_ACCESS_KEY_ID") = [] ∨ w.env (lit "AWS_SECRET_ACCESS_KEY") = [] ∨
        w.env (lit "AWS_BUCKET_NAME") = [] ∨ w.env (lit "AWS_REGION") = []) →
      (uploadToS3 w filename).2 = Outcome.fatal ∧
      (uploadToS3 w filename).1.getLast? = some Effect.Fatalf ∧
      ∀ e ∈ (uploadToS3 w filename).1,
        (∀ r a k, e ≠ Effect.NewSession r a k) ∧ (∀ f, e ≠ Effect.Open f) ∧
        (∀ b k, e ≠ Effect.PutObject b k)) ∧
    ((w.env (lit "AWS_ACCESS_KEY_ID") ≠ [] ∧ w.env (lit "AWS_SECRET_ACCESS_KEY") ≠ [] ∧
        w.env (lit "AWS_BUCKET_NAME") ≠ [] ∧ w.env (lit "AWS_REGION") ≠ []) →
      (∀ b k, Effect.PutObject b k ∈ (uploadToS3 w filename).1 →
        b = w.env (lit "AWS_BUCKET_NAME") ∧ k = Base filename) ∧
      (w.sessionOk = true → w.openOk = true →
        Effect.PutObject (w.env (lit "AWS_BUCKET_NAME")) (Base filename)
          ∈ (uploadToS3 w filename).1)) ∧
    (∀ dir name : GoString, name ≠ [] → Separator ∉ name →
      Base (dir ++ Separator :: name) = name ∧ Base name = name) := by
  refine ⟨?_, ?_, fun dir name hn hs => ⟨Base_join dir name hn hs, Base_name name hn hs⟩⟩
  · intro h
    have hu : uploadToS3 w filename =
        ([Effect.Getenv (lit "AWS_ACCESS_KEY_ID"), Effect.Getenv (lit "AWS_SECRET_ACCESS_KEY"),
          Effect.Getenv (lit "AWS_BUCKET_NAME"), Effect.Getenv (lit "AWS_REGION"),
          Effect.Fatalf], Outcome.fatal) := by
      simp only [uploadToS3, h, if_true]
      rfl
    rw [hu]
    refine ⟨rfl, rfl, ?_⟩
    intro e he
    simp only [List.mem_cons, List.mem_singleton, List.not_mem_nil, or_false] at he
    rcases he with rfl | rfl | rfl | rfl | rfl <;> simp
  · rintro ⟨h1, h2, h3, h4⟩
    have hc : ¬ (w.env (lit "AWS_ACCESS_KEY_ID") = [] ∨ w.env (lit "AWS_SECRET_ACCESS_KEY") = [] ∨
        w.env (lit "AWS_BUCKET_NAME") = [] ∨ w.env (lit "AWS_REGION") = []) := by
      simp [h1, h2, h3, h4]
    simp only [uploadToS3, hc, if_false]
    constructor
    · intro b k hmem
      cases hs : w.sessionOk <;> cases ho : w.openOk <;> simp [hs, ho] at hmem
      exact hmem
    · intro hs ho
      simp [hs, ho]

/-- Witness of C9: an environment with `AWS_REGION` unset, the other three
variables set to `x`. -/
theorem uploadToS3_environment_witness :
    (World.mk (fun v => if v = lit "AWS_REGION" then [] else lit "x") true true true).env
      (lit "AWS_REGION") = [] ∧
    (uploadToS3 (World.mk (fun v => if v = lit "AWS_REGION" then [] else lit "x") true true true)
      (lit "d/f.png")).2 = Outcome.fatal :=
  ⟨by simp,
    ((uploadToS3_environment
      (World.mk (fun v => if v = lit "AWS_REGION" then [] else lit "x") true true true)
      (lit "d/f.png")).1 (Or.inr (Or.inr (Or.inr (by simp))))).1⟩

/-! ## The draw cursor -/

/-- Counterexample to C10: with 1398101 lines `a`, all drawn, the line of
index 1398100 is not drawn at baseline `padding + fontSize*(i+1)`: the cursor
is a 32-bit `fixed.Int26_6`, `64*(10 + 24*1398101)` exceeds `2^31 - 1`, and the
cursor has wrapped to the pixel row -33554430. -/
theorem draw_cursor_wraps :
    ∃ st, (drawSteps (fun _ _ => true) (List.replicate 1398101 (lit "a")))[1398100]? = some st ∧
      st.drawn = true ∧ baseline st.pt = -33554430 ∧
      baseline st.pt ≠ padding + fontSize * ((1398100 : Int) + 1) := by
  have hlen : (drawSteps (fun _ _ => true) (List.replicate 1398101 (lit "a"))).length = 1398101 := by
    rw [drawSteps, drawLoop_length _ (fun _ _ => rfl), List.length_replicate]
  have hlt : 1398100 < (drawSteps (fun _ _ => true) (List.replicate 1398101 (lit "a"))).length := by
    rw [hlen]
    omega
  refine ⟨_, List.getElem?_eq_getElem hlt, ?_⟩
  obtain ⟨h1, _, h3, h4⟩ := drawLoop_step _ _ startPt 1398100 _ (List.getElem?_eq_getElem hlt)
  have hline : (List.replicate 1398101 (lit "a"))[1398100]? = some (lit "a") := by
    rw [List.getElem?_replicate]
    simp
  rw [hline] at h1
  have hl := (Option.some.inj h1).symm
  have hy : ((drawSteps (fun _ _ => true) (List.replicate 1398101 (lit "a")))[1398100]).pt.Y =
      -2147483520 := by
    rw [h3, startPt_eq]
    simp only [wrapInt32]
    norm_num
  refine ⟨?_, ?_, ?_⟩
  · rw [h4, hl]
    decide
  · rw [baseline, hy]
    norm_num
  · rw [baseline, hy]
    simp only [padding, fontSize]
    norm_num

/-- C10 as amended: the cursor advances by `fontSize` pixels (1536 units of
1/64 pixel) after every line, empty or not, in 32-bit arithmetic.  The
iteration of index `i` has the line of index `i`, horizontal origin `padding`,
and, as long as `i + 1 <= 1398100`, the baseline `padding + fontSize*(i+1)`;
for every `i`, when the line height is at least `fontSize`, the baseline is
at most `canvasHeight - padding` with
`canvasHeight = lineHeight*n + 2*padding`.  When no `DrawString` fails there
is one iteration per line. -/
theorem draw_cursor_positions (drawOk : GoString → Point26_6 → Bool) (lines : List GoString)
    (lineHeight : Int) (i : Nat) (st : DrawStep)
    (h : (drawSteps drawOk lines)[i]? = some st) :
    lines[i]? = some st.line ∧ st.drawn = decide (st.line ≠ []) ∧
    st.pt.X = 64 * padding ∧
    (i + 1 ≤ 1398100 → st.pt.Y = 64 * (padding + fontSize * ((i : Int) + 1)) ∧
      baseline st.pt = padding + fontSize * ((i : Int) + 1)) ∧
    (fontSize ≤ lineHeight → baseline st.pt ≤ imgHeight lineHeight lines - padding) ∧
    ((∀ l p, drawOk l p = true) → (drawSteps drawOk lines).length = lines.length) := by
  obtain ⟨h1, h2, h3, h4⟩ := drawLoop_step drawOk lines startPt i st h
  have hi : i < lines.length := by
    have := (List.getElem?_eq_some_iff.mp h1).1
    exact this
  have hy : st.pt.Y = wrapInt32 (2176 + 1536 * (i : Int)) := by
    rw [h3, startPt_eq]
    split_ifs with h0
    · subst h0
      decide
    · rfl
  refine ⟨h1, h4, ?_, ?_, ?_, fun hok => drawLoop_length drawOk hok lines startPt⟩
  · rw [h2, startPt_eq]
    rfl
  · intro hle
    have hY : st.pt.Y = 64 * (padding + fontSize * ((i : Int) + 1)) := by
      rw [hy]
      simp only [wrapInt32, padding, fontSize]
      omega
    refine ⟨hY, ?_⟩
    rw [baseline, hY]
    simp only [padding, fontSize]
    omega
  · intro hh
    rw [baseline, hy]
    simp only [imgHeight, padding, fontSize, wrapInt32] at *
    have hn : ((i : Int) + 1) ≤ (lines.length : Int) := by omega
    have hmul : 24 * (lines.length : Int) ≤ lineHeight * (lines.length : Int) :=
      Int.mul_le_mul_of_nonneg_right hh (by omega)
    omega

/-- Witness of C10 as amended: three lines, the middle one empty; the third
iteration starts at baseline `10 + 24*3 = 82`. -/
theorem draw_cursor_positions_witness :
    (drawSteps (fun _ _ => true) [lit "a", [], lit "b"])[2]? =
      some { line := lit "b", pt := { X := 640, Y := 5248 }, drawn := true } ∧
    baseline { X := 640, Y := 5248 } = padding + fontSize * (((2 : Nat) : Int) + 1) :=
  ⟨by decide,
    ((draw_cursor_positions (fun _ _ => true) [lit "a", [], lit "b"] 28 2
      { line := lit "b", pt := { X := 640, Y := 5248 }, drawn := true } (by decide)).2.2.2.1
      (by decide)).2⟩

end Seize
